import Mathlib

/-!
Verification of the `LearningPublicData` content viewer (`src/script.js`,
class `LearningContentViewer`) against its natural-language specification.

The JavaScript is shallowly embedded: JSON values become the inductive type
`JSVal`; truthiness, `typeof x === 'object'`, property access, and strict
equality are modelled explicitly; operations that can throw a `TypeError`
(calling `.includes`/`.replace`/`.filter` on a value of the wrong type)
return `Option`/`none` for the thrown case.  String searching and the
global literal replacement performed by
`summary.replace(new RegExp(filter, 'g'), ...)` are modelled on `List Char`
(the configured filter `"Testing Frameworks"` contains no regex
metacharacters, so the regex replace is a literal global replace).
-/

namespace LearningViewer

/-- A JSON value as produced by `JSON.parse` (numbers restricted to
integers; none of the verified logic inspects numeric values). -/
inductive JSVal where
  | vNull
  | vBool (b : Bool)
  | vNum (n : Int)
  | vStr (s : String)
  | vArr (items : List JSVal)
  | vObj (fields : List (String × JSVal))

/-- JavaScript truthiness of a value. -/
def truthy : JSVal → Bool
  | .vNull => false
  | .vBool b => b
  | .vNum n => n != 0
  | .vStr s => !s.isEmpty
  | .vArr _ => true
  | .vObj _ => true

/-- Truthiness of a possibly-`undefined` value (`none` models `undefined`). -/
def truthyOpt : Option JSVal → Bool
  | none => false
  | some v => truthy v

/-- `typeof x === 'object'` (true for `null`, arrays and objects). -/
def isObjectType : JSVal → Bool
  | .vNull => true
  | .vArr _ => true
  | .vObj _ => true
  | _ => false

/-- Field lookup in an object's field list (`JSON.parse` keeps the last
duplicate key; documents are modelled with distinct keys). -/
def lookupField : List (String × JSVal) → String → Option JSVal
  | [], _ => none
  | (k, v) :: rest, name => if k = name then some v else lookupField rest name

/-- Property access `x.name`; `none` models `undefined` (access on objects
and arrays only; every access in the program is guarded by a truthiness
and `typeof` check, so access on `null` never occurs). -/
def getField : JSVal → String → Option JSVal
  | .vObj fields, name => lookupField fields name
  | _, _ => none

/-- JavaScript strict equality `===` on parsed JSON values.  On primitives
it is value equality.  On objects and arrays `===` is reference identity;
`JSON.parse` never produces aliased references, so two values sitting at
distinct positions of a parsed document are never identical, and the
comparisons the program performs against them are modelled as `false`. -/
def jsStrictEq : JSVal → JSVal → Bool
  | .vNull, .vNull => true
  | .vBool a, .vBool b => a == b
  | .vNum a, .vNum b => a == b
  | .vStr a, .vStr b => a == b
  | _, _ => false

/-- `x.name === v` with an `undefined` left side comparing unequal to any
value the program compares against. -/
def fieldStrictEq (item : JSVal) (name : String) (v : JSVal) : Bool :=
  match getField item name with
  | some w => jsStrictEq w v
  | none => false

/-- `pat` is a prefix of `s` (character lists). -/
def hasPrefixL : List Char → List Char → Bool
  | [], _ => true
  | _ :: _, [] => false
  | p :: ps, c :: cs => p == c && hasPrefixL ps cs

/-- `s` contains `pat` as a contiguous substring (character lists);
models JavaScript `String.prototype.includes`. -/
def containsL : List Char → List Char → Bool
  | [], pat => pat.isEmpty
  | c :: cs, pat => hasPrefixL pat (c :: cs) || containsL cs pat

/-- `s.includes(pat)` on strings. -/
def jsIncludes (s pat : String) : Bool := containsL s.data pat.data

/-- Global literal replacement: replace every leftmost non-overlapping
occurrence of `pat` in `s` by `repl`; models
`s.replace(new RegExp(pat, 'g'), repl)` for a metacharacter-free `pat`
(the pattern is always non-empty at the call site, guarded by the
truthiness of `contentFilter`; an empty `pat` replaces nothing here). -/
def replaceAllGo (pat repl : List Char) : Nat → List Char → List Char
  | _, [] => []
  | 0, s => s
  | fuel + 1, c :: cs =>
    if !pat.isEmpty && hasPrefixL pat (c :: cs) then
      repl ++ replaceAllGo pat repl fuel ((c :: cs).drop pat.length)
    else
      c :: replaceAllGo pat repl fuel cs

/-- Entry point of the global replacement scan: a fuel of `s.length` always
suffices because each step consumes at least one character. -/
def replaceAllL (pat repl s : List Char) : List Char :=
  replaceAllGo pat repl s.length s

/-- The segments of `s` between the leftmost non-overlapping occurrences of
`pat` (the decomposition underlying `replaceAllL`); fuel-indexed scan. -/
def splitPartsGo (pat : List Char) : Nat → List Char → List (List Char)
  | _, [] => [[]]
  | 0, s => [s]
  | fuel + 1, c :: cs =>
    if !pat.isEmpty && hasPrefixL pat (c :: cs) then
      [] :: splitPartsGo pat fuel ((c :: cs).drop pat.length)
    else
      match splitPartsGo pat fuel cs with
      | [] => [[c]]
      | p :: ps => (c :: p) :: ps

/-- The decomposition of `s` at the leftmost non-overlapping occurrences
of `pat`. -/
def splitPartsL (pat s : List Char) : List (List Char) :=
  splitPartsGo pat s.length s

/-- Join a list of segments with a separator. -/
def interL (sep : List Char) : List (List Char) → List Char
  | [] => []
  | [p] => p
  | p :: q :: ps => p ++ sep ++ interL sep (q :: ps)

/-- String-level global literal replacement, as performed on an entry's
summary by `displayContentByType`. -/
def replaceAllStr (s pat repl : String) : String :=
  String.mk (replaceAllL pat.data repl.data s.data)

/-- Replace the first occurrence of `pat` only, as JavaScript
`String.prototype.replace` does with a string pattern; used for
`fileSelect.value.replace('_learnings.json', '')`. -/
def replaceFirstL (pat repl : List Char) : List Char → List Char
  | [] => []
  | c :: cs =>
    if !pat.isEmpty && hasPrefixL pat (c :: cs) then repl ++ (c :: cs).drop pat.length
    else c :: replaceFirstL pat repl cs

/- ### The viewer's configuration and filter predicate -/

/-- The constructor parameters `contentFilter` and `typeFilter`; process-wide
and immutable after construction. -/
structure FilterConfig where
  contentFilter : String
  typeFilter : String

/-- The default construction arguments of `LearningContentViewer`
(`contentFilter = "Testing Frameworks"`, `typeFilter = "tech_choices"`),
used by the only instantiation in the repository. -/
def defaultConfig : FilterConfig :=
  { contentFilter := "Testing Frameworks", typeFilter := "tech_choices" }

/-- The per-entry test inside `fileContainsFilteredContent`:
`item && typeof item === 'object' && item.type === this.typeFilter &&
item.summary && typeof item.summary === 'string' &&
item.summary.includes(this.contentFilter)`. -/
def entryMatchesFilter (cfg : FilterConfig) (item : JSVal) : Bool :=
  truthy item && isObjectType item &&
  fieldStrictEq item "type" (.vStr cfg.typeFilter) &&
  (match getField item "summary" with
   | some (.vStr s) => !s.isEmpty && jsIncludes s cfg.contentFilter
   | _ => false)

/-- `fileContainsFilteredContent(data)`: false for non-arrays, otherwise
`data.some(...)` with the per-entry test above. -/
def fileContainsFilteredContent (cfg : FilterConfig) (data : JSVal) : Bool :=
  match data with
  | .vArr items => items.any (entryMatchesFilter cfg)
  | _ => false

/- ### File discovery (`tryLoadingFiles`) and fallback (`init`) -/

/-- The accumulation loop of `tryLoadingFiles`: walk the candidate list in
order; a failed load is skipped (caught per file); a successful load is
pushed onto `loadedFiles` and, when its content matches the filter, onto
`filteredFiles`.  A candidate is a file name together with the outcome of
`loadJsonFile` for it (`Except.error` models a thrown load failure:
network error, timeout, HTTP error, wrong content type or malformed JSON). -/
def discoverLoop (cfg : FilterConfig) :
    List (String × Except String JSVal) → List String × List String
  | [] => ([], [])
  | (_, .error _) :: rest => discoverLoop cfg rest
  | (name, .ok d) :: rest =>
    let r := discoverLoop cfg rest
    (name :: r.1, if fileContainsFilteredContent cfg d then name :: r.2 else r.2)

/-- `tryLoadingFiles`: throws (`none`) when no file loaded; otherwise the
dropdown is populated from `filteredFiles` when non-empty, else from all
loaded files. -/
def tryLoadingFiles (cfg : FilterConfig)
    (loads : List (String × Except String JSVal)) : Option (List String) :=
  let r := discoverLoop cfg loads
  if r.1.isEmpty then none
  else if !r.2.isEmpty then some r.2 else some r.1

/-- The successfully loaded candidates, in discovery order (specification
side characterisation of `loadedFiles`). -/
def loadedNames (loads : List (String × Except String JSVal)) : List String :=
  loads.filterMap fun p =>
    match p.2 with
    | .ok _ => some p.1
    | .error _ => none

/-- The candidates whose content matches the filter, in discovery order
(specification-side characterisation of `filteredFiles`). -/
def matchedNames (cfg : FilterConfig)
    (loads : List (String × Except String JSVal)) : List String :=
  loads.filterMap fun p =>
    match p.2 with
    | .ok d => if fileContainsFilteredContent cfg d then some p.1 else none
    | .error _ => none

/-- `init`: try `tryLoadingFiles`; on failure fall back to `useSampleData`,
which lists the keys of the built-in sample dataset.  The result is the
list of file names shown in the file-selection dropdown. -/
def initDisplayed (cfg : FilterConfig)
    (loads : List (String × Except String JSVal))
    (sampleData : List (String × JSVal)) : List String :=
  match tryLoadingFiles cfg loads with
  | some disp => disp
  | none => sampleData.map Prod.fst

/- ### Category derivation (`updateTypeButtons`) -/

/-- The values collected by
`data.filter(item => item && typeof item === 'object' && item.type).map(item => item.type)`. -/
def collectTypes (items : List JSVal) : List JSVal :=
  items.filterMap fun item =>
    match getField item "type" with
    | some tv =>
      if truthy item && isObjectType item && truthy tv then some tv else none
    | none => none

/-- `[...new Set(xs)]`: keep the first occurrence of each element,
comparing with SameValueZero (modelled by `jsStrictEq`; see there for the
treatment of object identity). -/
def setDedup : List JSVal → List JSVal → List JSVal
  | _, [] => []
  | seen, x :: xs =>
    if seen.any (jsStrictEq x) then setDedup seen xs
    else x :: setDedup (x :: seen) xs

/-- The string a value is converted to by the default comparator of
`Array.prototype.sort` (JavaScript `ToString`; integers, booleans, null
and strings are exact, composite values are approximated — the program
only ever sorts category labels, which the data model declares to be
strings). -/
def jsKey : JSVal → String
  | .vNull => "null"
  | .vBool b => if b then "true" else "false"
  | .vNum n => toString n
  | .vStr s => s
  | .vArr _ => ""
  | .vObj _ => "[object Object]"

/-- Lexicographic comparison of character lists by code point, the order
the default `Array.prototype.sort` comparator induces on strings. -/
def strLeL : List Char → List Char → Bool
  | [], _ => true
  | _ :: _, [] => false
  | a :: as, b :: bs => if a = b then strLeL as bs else decide (a < b)

/-- The order `.sort()` arranges category labels in. -/
def jsKeyLe (a b : JSVal) : Prop :=
  strLeL (jsKey a).data (jsKey b).data = true

instance : DecidableRel jsKeyLe := fun _ _ => inferInstanceAs (Decidable (_ = true))

/-- The category list computed by `updateTypeButtons`:
`[...new Set(collected types)].sort()`. -/
def categoriesOf (items : List JSVal) : List JSVal :=
  List.insertionSort jsKeyLe (setDedup [] (collectTypes items))

/- ### Rendering a category (`displayContentByType`) -/

/-- A character matched by the regex class `\w` (ASCII word character). -/
def wordChar (c : Char) : Bool := c.isAlpha || c.isDigit || c = '_'

/-- The scan performed by `.replace(/\b\w/g, c => c.toUpperCase())`:
uppercase every word character that starts a word (is preceded by a
non-word character or by nothing). -/
def upWordStarts : Bool → List Char → List Char
  | _, [] => []
  | prevWord, c :: cs =>
    (if !prevWord && wordChar c then c.toUpper else c) :: upWordStarts (wordChar c) cs

/-- `typeName.replace(/_/g, ' ')`. -/
def underscoreToSpace (s : String) : String :=
  String.mk (s.data.map fun c => if c = '_' then ' ' else c)

/-- The header title built by `displayContentByType`:
`typeName.replace(/_/g, ' ').replace(/\b\w/g, c => c.toUpperCase())`. -/
def titleCase (typeName : String) : String :=
  String.mk (upWordStarts false (underscoreToSpace typeName).data)

/-- Per-character capitalization rule of the specification-side title
derivation: a character is uppercased exactly when it is a word character
whose predecessor (if any) is not a word character. -/
def specCapChar (cp : Char × Option Char) : Char :=
  if wordChar cp.1 &&
      (match cp.2 with
       | none => true
       | some p => !wordChar p) then cp.1.toUpper else cp.1

/-- Title derivation as the specification words it: replace underscores by
spaces, then capitalize the leading letter of each word.  Stated
positionally (each character paired with its predecessor) rather than as a
stateful scan, for comparison with `titleCase`. -/
def specTitleCase (s : String) : String :=
  let sp := s.data.map fun c => if c = '_' then ' ' else c
  String.mk ((sp.zip (none :: sp.map some)).map specCapChar)

/-- `repoName`: the dropdown value with the first occurrence of
`'_learnings.json'` removed. -/
def repoNameOf (selectedFile : String) : String :=
  String.mk (replaceFirstL "_learnings.json".data [] selectedFile.data)

/-- The highlight wrapper `<span class="highlight">…</span>` placed around
each replaced occurrence of the filter text. -/
def highlightSpan (filter : String) : String :=
  "<span class=\"highlight\">" ++ filter ++ "</span>"

/-- `contentItems`: the entries of the current document whose `type` is
strictly equal to the rendered category. -/
def contentItemsOf (items : List JSVal) (typeName : JSVal) : List JSVal :=
  items.filter fun item =>
    truthy item && isObjectType item && fieldStrictEq item "type" typeName

/-- The predicate of `hasMatchingContent`:
`item.summary && item.summary.includes(this.contentFilter)`.  `none` models
the `TypeError` thrown when `.includes` is called on a truthy non-string
summary (this call site has no `typeof` guard). -/
def summaryMatches (cfg : FilterConfig) (item : JSVal) : Option Bool :=
  match getField item "summary" with
  | none => some false
  | some sv =>
    if truthy sv then
      match sv with
      | .vStr s => some (jsIncludes s cfg.contentFilter)
      | _ => none
    else some false

/-- `Array.prototype.some`: short-circuits on the first `true`; an
exception (`none`) thrown by the predicate aborts the whole call. -/
def jsSomeM {α : Type} (p : α → Option Bool) : List α → Option Bool
  | [] => some false
  | x :: xs =>
    match p x with
    | none => none
    | some true => some true
    | some false => jsSomeM p xs

/-- One iteration of the `contentItems.forEach` body: `some none` means
the entry was skipped (`if (!item.summary) return`), `some (some b)` means
the value `b` is passed on to the markdown converter, `none` means the
highlight guard threw (`summary.includes` on a truthy non-string summary
of the actively filtered category). -/
def renderBlock (cfg : FilterConfig) (typeName : JSVal) (item : JSVal) :
    Option (Option JSVal) :=
  match getField item "summary" with
  | none => some none
  | some sv =>
    if truthy sv then
      if !cfg.contentFilter.isEmpty && jsStrictEq typeName (.vStr cfg.typeFilter) then
        match sv with
        | .vStr s =>
          some (some (.vStr (if jsIncludes s cfg.contentFilter then
            replaceAllStr s cfg.contentFilter (highlightSpan cfg.contentFilter)
          else s)))
        | _ => none
      else some (some sv)
    else some none

/-- The list of summary blocks appended by the `forEach` loop, in order;
`none` when some iteration throws. -/
def renderBlocks (cfg : FilterConfig) (typeName : JSVal) :
    List JSVal → Option (List JSVal)
  | [] => some []
  | item :: rest =>
    match renderBlock cfg typeName item with
    | none => none
    | some none => renderBlocks cfg typeName rest
    | some (some b) => (renderBlocks cfg typeName rest).map (b :: ·)

/-- What `displayContentByType` writes to the content region: the explicit
empty-category message, or a header plus an optional filter callout plus
the rendered summary blocks (kept in their pre-markdown form; the markdown
converter is an external pure function applied to each block afterwards). -/
inductive RenderOutput where
  | noContent (typeName : JSVal)
  | content (header : String) (callout : Bool) (blocks : List JSVal)

/-- `displayContentByType(typeName)` on a loaded document.  `none` models a
thrown `TypeError`: either from `hasMatchingContent` (truthy non-string
summary), from building the header (`typeName.replace` on a non-string
category value), or from the highlight guard inside the loop — in the
JavaScript evaluation order. -/
def displayContentByType (cfg : FilterConfig) (selectedFile : String)
    (items : List JSVal) (typeName : JSVal) : Option RenderOutput :=
  if (contentItemsOf items typeName).isEmpty then some (.noContent typeName)
  else
    match jsSomeM (summaryMatches cfg) (contentItemsOf items typeName) with
    | none => none
    | some hasMatch =>
      match typeName with
      | .vStr tn =>
        match renderBlocks cfg typeName (contentItemsOf items typeName) with
        | none => none
        | some blocks =>
          some (.content (repoNameOf selectedFile ++ " - " ++ titleCase tn)
            (jsStrictEq typeName (.vStr cfg.typeFilter) && hasMatch) blocks)
      | _ => none

/- ### Selection (`displaySelectedContent`, `handleFileSelection`) -/

/-- What `displaySelectedContent` does to the content region.
`nothingRendered` is the silent fall-through in which no branch writes
anything and the previous content persists. -/
inductive SelectionOutcome where
  | pleaseSelect
  | rendered (typeName : JSVal) (out : RenderOutput)
  | nothingRendered
  | emptyFile

/-- The predicate of `matchingItems` in `displaySelectedContent`:
`item && typeof item === 'object' && item.type === this.typeFilter &&
item.summary && item.summary.includes(this.contentFilter)` — note the
missing `typeof item.summary === 'string'` guard, so a truthy non-string
summary on an entry of the target category throws (`none`). -/
def matchingPred (cfg : FilterConfig) (item : JSVal) : Option Bool :=
  if truthy item && isObjectType item &&
      fieldStrictEq item "type" (.vStr cfg.typeFilter) then
    match getField item "summary" with
    | none => some false
    | some sv =>
      if truthy sv then
        match sv with
        | .vStr s => some (jsIncludes s cfg.contentFilter)
        | _ => none
      else some false
  else some false

/-- `Array.prototype.filter`: evaluates the predicate on every element in
order; an exception (`none`) aborts the whole call. -/
def jsFilterM {α : Type} (p : α → Option Bool) : List α → Option (List α)
  | [] => some []
  | x :: xs =>
    match p x with
    | none => none
    | some true => (jsFilterM p xs).map (x :: ·)
    | some false => jsFilterM p xs

/-- `displaySelectedContent()` with `currentJsonData = cur`
(`none` = `null`).  Mirrors the branch structure of the source: target
category when `matchingItems` is non-empty; else the type of the literal
first element `currentJsonData[0]` when that element is a truthy object
with a truthy `type`; else, for a non-empty document, no branch runs and
nothing is written; else the explicit empty-file message. -/
def displaySelectedContent (cfg : FilterConfig) (selectedFile : String)
    (cur : Option JSVal) : Option SelectionOutcome :=
  match cur with
  | none => some .pleaseSelect
  | some d =>
    if !truthy d then some .pleaseSelect
    else
      match d with
      | .vArr items =>
        match jsFilterM (matchingPred cfg) items with
        | none => none
        | some matching =>
          if !matching.isEmpty then
            (displayContentByType cfg selectedFile items (.vStr cfg.typeFilter)).map
              (.rendered (.vStr cfg.typeFilter))
          else
            match items with
            | [] => some .emptyFile
            | first :: _ =>
              if truthy first && isObjectType first && truthyOpt (getField first "type") then
                match getField first "type" with
                | some tv =>
                  (displayContentByType cfg selectedFile items tv).map (.rendered tv)
                | none => some .nothingRendered
              else some .nothingRendered
      | _ => none

/-- The truthy `summary` values of a list of entries, in order — exactly
the summaries the `forEach` loop does not skip. -/
def truthySummaries (items : List JSVal) : List JSVal :=
  items.filterMap fun item =>
    match getField item "summary" with
    | some sv => if truthy sv then some sv else none
    | none => none

/-- The decomposition relation between a summary value and the block the
loop emits for it in the actively filtered category: the summary is a
string splitting into filter-free segments joined by the filter text, and
the emitted block joins the same segments with the highlight wrapper — so
every (leftmost, non-overlapping) occurrence of the filter text is wrapped
and nothing else changes. -/
def highlightRel (cfg : FilterConfig) (sv bv : JSVal) : Prop :=
  ∃ (s : String) (parts : List (List Char)),
    sv = JSVal.vStr s ∧
    (∀ p ∈ parts, containsL p cfg.contentFilter.data = false) ∧
    s.data = interL cfg.contentFilter.data parts ∧
    bv = JSVal.vStr (String.mk (interL (highlightSpan cfg.contentFilter).data parts))

/-- A value is a string. -/
def isStringVal : JSVal → Bool
  | .vStr _ => true
  | _ => false

/-- A field is either absent, falsy, or a string — the shape the data
model declares (`type`: string, `summary`: string optional). -/
def fieldClean (item : JSVal) (name : String) : Bool :=
  match getField item name with
  | some v => !truthy v || isStringVal v
  | none => true

/-- An entry whose truthy `summary` and `type` fields are strings. -/
def entryClean (item : JSVal) : Bool :=
  fieldClean item "summary" && fieldClean item "type"

/-- A document all of whose entries are clean. -/
def docClean (items : List JSVal) : Bool := items.all entryClean

/-- The guard the source applies to `currentJsonData[0]` before rendering
its category: `firstItem && typeof firstItem === 'object' && firstItem.type`. -/
def firstEntryRenderable (item : JSVal) : Bool :=
  truthy item && isObjectType item && truthyOpt (getField item "type")

/-- Modelled from the spec for comparison with the code: an entry is
well-formed when it is an object with a `type` field present. -/
def isWellFormedEntry (item : JSVal) : Bool :=
  match item with
  | .vObj fields => (lookupField fields "type").isSome
  | _ => false

/-- Modelled from the spec for comparison with the code: the `type` of the
first well-formed entry of the document, in natural order. -/
def firstWellFormedType (items : List JSVal) : Option JSVal :=
  match items.find? isWellFormedEntry with
  | some item => getField item "type"
  | none => none

/-- Modelled from the spec for comparison with the code: the outcome claim
C4 predicts for `displaySelectedContent` — (a) the target category when it
has a matching entry, else (b) the category of the first well-formed
entry, else (c) the explicit empty state. -/
def specSelectedOutcome (cfg : FilterConfig) (selectedFile : String)
    (items : List JSVal) : Option SelectionOutcome :=
  if items.any (entryMatchesFilter cfg) then
    (displayContentByType cfg selectedFile items (.vStr cfg.typeFilter)).map
      (.rendered (.vStr cfg.typeFilter))
  else
    match firstWellFormedType items with
    | some tv => (displayContentByType cfg selectedFile items tv).map (.rendered tv)
    | none => some .emptyFile

/- ### The selection state machine (`handleFileSelection`) -/

/-- The category-buttons region of the page. -/
inductive ButtonsRegion where
  | initial
  | cleared
  | noTypesMsg
  | buttons (types : List JSVal)

/-- The effect of `updateTypeButtons()` on the buttons region:
`unchanged` for the early return, `set` for a rewrite. -/
inductive ButtonsUpdate where
  | unchanged
  | set (r : ButtonsRegion)

/-- `updateTypeButtons()`: early return when no data; otherwise clear the
container and rebuild it from the category list (`none` models the
`TypeError` from `.filter` on a truthy non-array document, thrown after
the container was cleared). -/
def updateTypeButtons (cur : Option JSVal) : Option ButtonsUpdate :=
  match cur with
  | none => some .unchanged
  | some d =>
    if !truthy d then some .unchanged
    else
      match d with
      | .vArr items =>
        let types := categoriesOf items
        if types.isEmpty then some (.set .noTypesMsg)
        else some (.set (.buttons types))
      | _ => none

/-- The content-output region of the page. -/
inductive ContentRegion where
  | initial
  | selection (o : SelectionOutcome)

/-- Write a selection outcome to the content region; the silent
fall-through leaves the previous content in place. -/
def applySelection (o : SelectionOutcome) (prev : ContentRegion) : ContentRegion :=
  match o with
  | .nothingRendered => prev
  | o => .selection o

/-- Apply a buttons update to the buttons region. -/
def applyButtons (u : ButtonsUpdate) (prev : ButtonsRegion) : ButtonsRegion :=
  match u with
  | .unchanged => prev
  | .set r => r

/-- The mutable state of the viewer that `handleFileSelection` touches. -/
structure ViewerState where
  currentJsonData : Option JSVal
  typeButtons : ButtonsRegion
  contentOutput : ContentRegion
  statusMessage : Option String

/-- The message text of a thrown `TypeError` (abstracted). -/
def typeErrorMsg : String := "TypeError"

/-- The data source chosen by `handleFileSelection`: the sample dataset
entry when present and truthy, otherwise the outcome of
`loadJsonFile(fileName)` (`Except.error` models a thrown load failure). -/
def sampleOrLoad (sampleData : List (String × JSVal)) (fileName : String)
    (loadResult : Except String JSVal) : Except String JSVal :=
  match lookupField sampleData fileName with
  | some v => if truthy v then .ok v else loadResult
  | none => loadResult

/-- `handleFileSelection(fileName)`: obtain the document (sample or load);
on a thrown load failure the `catch` shows an error status and nothing
else changes.  On success the document is stored, then the buttons are
rebuilt, then the content is re-rendered; an exception thrown by a later
step is caught after the earlier effects have happened. -/
def handleFileSelection (cfg : FilterConfig) (sampleData : List (String × JSVal))
    (loadResult : Except String JSVal) (fileName : String) (st : ViewerState) :
    ViewerState :=
  match sampleOrLoad sampleData fileName loadResult with
  | .error msg => { st with statusMessage := some ("Error: " ++ msg) }
  | .ok d =>
    let st1 := { st with currentJsonData := some d }
    match updateTypeButtons (some d) with
    | none =>
      { st1 with typeButtons := .cleared,
                 statusMessage := some ("Error: " ++ typeErrorMsg) }
    | some u =>
      let st2 := { st1 with typeButtons := applyButtons u st1.typeButtons }
      match displaySelectedContent cfg fileName (some d) with
      | none => { st2 with statusMessage := some ("Error: " ++ typeErrorMsg) }
      | some o => { st2 with contentOutput := applySelection o st2.contentOutput }

/- ### Concrete documents used by witnesses and counterexamples -/

/-- A document with category sequence `b, a, a, c` (the example in the
category-set property). -/
def categoriesExampleDoc : List JSVal :=
  [.vObj [("type", .vStr "b")],
   .vObj [("type", .vStr "a"), ("summary", .vStr "first a")],
   .vObj [("type", .vStr "a")],
   .vObj [("type", .vStr "c")]]

/-- A document whose first entry is ill-formed (`null`) followed by a
well-formed entry of category `a`; no entry matches the default filter. -/
def illFirstDoc : List JSVal :=
  [.vNull, .vObj [("type", .vStr "a"), ("summary", .vStr "x")]]

/-- Three candidates that all load, exactly one of which matches the
default filter. -/
def c1Loads : List (String × Except String JSVal) :=
  [("f1", .ok (.vArr [.vObj [("type", .vStr "other"),
      ("summary", .vStr "nothing here")]])),
   ("f2", .ok (.vArr [.vObj [("type", .vStr "tech_choices"),
      ("summary", .vStr "uses Testing Frameworks well")]])),
   ("f3", .ok (.vArr [.vObj [("type", .vStr "tech_choices"),
      ("summary", .vStr "plain")]]))]

/-- A one-entry document matching the default filter. -/
def c2Doc : List JSVal :=
  [.vObj [("type", .vStr "tech_choices"),
    ("summary", .vStr "see Testing Frameworks guide")]]

/-- A one-entry document of the target category whose summary contains the
filter text once. -/
def c3Doc : List JSVal :=
  [.vObj [("type", .vStr "tech_choices"),
    ("summary", .vStr "use Testing Frameworks now")]]

/-- A document with a single entry of category `x`. -/
def c9Doc : List JSVal := [.vObj [("type", .vStr "x")]]

/-- An entry of category `a` with no `summary` field at all. -/
def c10Entry : JSVal := .vObj [("type", .vStr "a")]

/-- A companion document with one renderable entry of category `a`. -/
def c10Rest : List JSVal :=
  [.vObj [("type", .vStr "a"), ("summary", .vStr "hello")]]

/-- Three candidates that all fail to load. -/
def c6Loads : List (String × Except String JSVal) :=
  [("f1", .error "timeout"), ("f2", .error "bad json"),
   ("f3", .error "HTTP error 500")]

/-- A non-empty built-in sample dataset. -/
def c6Sample : List (String × JSVal) :=
  [("sample_learnings.json", .vArr [])]

/-- A viewer state holding a previously loaded document. -/
def priorState : ViewerState :=
  { currentJsonData := some (.vArr []), typeButtons := .initial,
    contentOutput := .initial, statusMessage := none }

theorem jsStrictEq_eq_true_iff : ∀ {a b : JSVal}, jsStrictEq a b = true →a = b := by
  intro a b h
  cases a <;> cases b <;> simp [jsStrictEq] at h <;> simp [h]

theorem jsStrictEq_refl_vStr (s : String) : jsStrictEq (.vStr s) (.vStr s) = true := by
  simp [jsStrictEq]

/- ### Strings: prefix test, substring test, global literal replacement -/

theorem hasPrefixL_iff {p s : List Char} : hasPrefixL p s = true ↔ p <+: s := by
  induction p generalizing s with
  | nil => simp [hasPrefixL]
  | cons a as ih =>
    cases s with
    | nil => simp [hasPrefixL]
    | cons c cs =>
      simp only [hasPrefixL, Bool.and_eq_true, beq_iff_eq]
      constructor
      · rintro ⟨rfl, h⟩
        exact (List.prefix_cons_inj a).mpr (ih.mp h)
      · intro h
        obtain ⟨t, ht⟩ := h
        injection ht with h1 h2
        exact ⟨h1, ih.mpr ⟨t, h2⟩⟩

theorem containsL_iff {s pat : List Char} :
    containsL s pat = true ↔ ∃ pre post, s = pre ++ pat ++ post := by
  induction s with
  | nil =>
    simp only [containsL, List.isEmpty_iff]
    constructor
    · rintro rfl; exact ⟨[], [], rfl⟩
    · rintro ⟨pre, post, h⟩
      rcases List.append_eq_nil.mp (List.append_eq_nil.mp h.symm).1 with ⟨_, h2⟩
      exact h2
  | cons c cs ih =>
    simp only [containsL, Bool.or_eq_true, hasPrefixL_iff, ih]
    constructor
    · rintro (⟨t, ht⟩ | ⟨pre, post, h⟩)
      · exact ⟨[], t, by simp [ht]⟩
      · exact ⟨c :: pre, post, by simp [h]⟩
    · rintro ⟨pre, post, h⟩
      cases pre with
      | nil => exact Or.inl ⟨post, by simpa using h.symm⟩
      | cons p ps =>
        right
        injection h with h1 h2
        exact ⟨ps, post, h2⟩

theorem interL_cons_ne_nil (sep : List Char) (p : List Char) {ps : List (List Char)}
    (h : ps ≠ []) : interL sep (p :: ps) = p ++ sep ++ interL sep ps := by
  cases ps with
  | nil => exact absurd rfl h
  | cons q qs => rfl

theorem interL_cons_cons_head (sep : List Char) (c : Char) (p : List Char)
    (ps : List (List Char)) :
    interL sep ((c :: p) :: ps) = c :: interL sep (p :: ps) := by
  cases ps with
  | nil => rfl
  | cons q qs => simp [interL]

theorem hasPrefixL_append_drop {pat s : List Char} (h : hasPrefixL pat s = true) :
    pat ++ s.drop pat.length = s := by
  obtain ⟨t, rfl⟩ := hasPrefixL_iff.mp h
  rw [List.drop_left]

theorem scanGuard_iff {pat s : List Char} :
    (!pat.isEmpty && hasPrefixL pat s) = true ↔ pat ≠ [] ∧ hasPrefixL pat s = true := by
  simp [List.isEmpty_iff]

theorem splitPartsGo_ne_nil (pat : List Char) (fuel : Nat) (s : List Char) :
    splitPartsGo pat fuel s ≠ [] := by
  cases s with
  | nil => simp [splitPartsGo]
  | cons c cs =>
    cases fuel with
    | zero => simp [splitPartsGo]
    | succ n =>
      simp only [splitPartsGo]
      split
      · simp
      · split <;> simp

theorem interL_splitPartsGo (pat : List Char) :
    ∀ (fuel : Nat) (s : List Char), s.length ≤ fuel →
      interL pat (splitPartsGo pat fuel s) = s := by
  intro fuel
  induction fuel with
  | zero =>
    intro s hs
    have hnil : s = [] := List.length_eq_zero.mp (Nat.le_zero.mp hs)
    subst hnil
    simp [splitPartsGo, interL]
  | succ n ih =>
    intro s hs
    cases s with
    | nil => simp [splitPartsGo, interL]
    | cons c cs =>
      simp only [splitPartsGo]
      split
      · rename_i h
        obtain ⟨hne, hpre⟩ := scanGuard_iff.mp h
        have h1 : 1 ≤ pat.length := List.length_pos.mpr hne
        have hlen : ((c :: cs).drop pat.length).length ≤ n := by
          simp only [List.length_drop, List.length_cons]
          simp only [List.length_cons] at hs
          omega
        rw [interL_cons_ne_nil pat [] (splitPartsGo_ne_nil pat n _), ih _ hlen]
        simpa using hasPrefixL_append_drop hpre
      · have hcs : cs.length ≤ n := by
          simp only [List.length_cons] at hs; omega
        rcases hsp : splitPartsGo pat n cs with _ | ⟨p, ps⟩
        · exact absurd hsp (splitPartsGo_ne_nil pat n cs)
        · rw [interL_cons_cons_head, ← hsp, ih _ hcs]

theorem interL_splitPartsL (pat s : List Char) :
    interL pat (splitPartsL pat s) = s :=
  interL_splitPartsGo pat s.length s le_rfl

theorem splitPartsGo_head_prefix (pat : List Char) :
    ∀ (fuel : Nat) (s p : List Char) (ps : List (List Char)),
      splitPartsGo pat fuel s = p :: ps → p <+: s := by
  intro fuel
  induction fuel with
  | zero =>
    intro s p ps hsp
    cases s with
    | nil =>
      simp [splitPartsGo] at hsp
      simp [hsp.1]
    | cons c cs =>
      simp [splitPartsGo] at hsp
      rw [← hsp.1]
  | succ n ih =>
    intro s p ps hsp
    cases s with
    | nil =>
      simp [splitPartsGo] at hsp
      simp [hsp.1]
    | cons c cs =>
      simp only [splitPartsGo] at hsp
      split at hsp
      · injection hsp with h1 h2
        simp [← h1]
      · rcases hsp2 : splitPartsGo pat n cs with _ | ⟨q, qs⟩
        · exact absurd hsp2 (splitPartsGo_ne_nil pat n cs)
        · rw [hsp2] at hsp
          injection hsp with h1 h2
          have hq : q <+: cs := ih cs q qs hsp2
          obtain ⟨t, ht⟩ := hq
          exact ⟨t, by rw [← h1]; simp [ht]⟩

theorem splitPartsGo_parts_free (pat : List Char) (hpat : pat ≠ []) :
    ∀ (fuel : Nat) (s : List Char), s.length ≤ fuel →
      ∀ q ∈ splitPartsGo pat fuel s, containsL q pat = false := by
  intro fuel
  induction fuel with
  | zero =>
    intro s hs q hq
    have hnil : s = [] := List.length_eq_zero.mp (Nat.le_zero.mp hs)
    subst hnil
    simp [splitPartsGo] at hq
    subst hq
    simpa [containsL, List.isEmpty_iff] using hpat
  | succ n ih =>
    intro s hs q hq
    cases s with
    | nil =>
      simp [splitPartsGo] at hq
      subst hq
      simpa [containsL, List.isEmpty_iff] using hpat
    | cons c cs =>
      simp only [splitPartsGo] at hq
      split at hq
      · rename_i h
        obtain ⟨hne, hpre⟩ := scanGuard_iff.mp h
        have h1 : 1 ≤ pat.length := List.length_pos.mpr hne
        have hlen : ((c :: cs).drop pat.length).length ≤ n := by
          simp only [List.length_drop, List.length_cons]
          simp only [List.length_cons] at hs
          omega
        rcases List.mem_cons.mp hq with rfl | hq2
        · simpa [containsL, List.isEmpty_iff] using hpat
        · exact ih _ hlen q hq2
      · rename_i hcond
        have hcs : cs.length ≤ n := by
          simp only [List.length_cons] at hs; omega
        rcases hsp : splitPartsGo pat n cs with _ | ⟨p, ps⟩
        · exact absurd hsp (splitPartsGo_ne_nil pat n cs)
        · rw [hsp] at hq
          rcases List.mem_cons.mp hq with rfl | hq2
          · have hpfree : containsL p pat = false :=
              ih cs hcs p (by rw [hsp]; exact List.mem_cons_self p ps)
            have hnp : hasPrefixL pat (c :: p) = false := by
              by_contra hcontra
              have hp : hasPrefixL pat (c :: p) = true := by
                revert hcontra; cases hasPrefixL pat (c :: p) <;> simp
              have hpre : pat <+: c :: p := hasPrefixL_iff.mp hp
              have hcp : (c :: p) <+: (c :: cs) := by
                obtain ⟨t, ht⟩ := splitPartsGo_head_prefix pat n cs p ps hsp
                exact ⟨t, by simp [ht]⟩
              have hall : hasPrefixL pat (c :: cs) = true :=
                hasPrefixL_iff.mpr (hpre.trans hcp)
              exact hcond (scanGuard_iff.mpr ⟨hpat, hall⟩)
            simp [containsL, hnp, hpfree]
          · exact ih cs hcs q (by rw [hsp]; exact List.mem_cons_of_mem p hq2)

theorem splitPartsL_parts_free {pat : List Char} (hpat : pat ≠ []) (s : List Char) :
    ∀ q ∈ splitPartsL pat s, containsL q pat = false :=
  splitPartsGo_parts_free pat hpat s.length s le_rfl

theorem replaceAllGo_eq_interL (pat repl : List Char) :
    ∀ (fuel : Nat) (s : List Char), s.length ≤ fuel →
      replaceAllGo pat repl fuel s = interL repl (splitPartsGo pat fuel s) := by
  intro fuel
  induction fuel with
  | zero =>
    intro s hs
    have hnil : s = [] := List.length_eq_zero.mp (Nat.le_zero.mp hs)
    subst hnil
    simp [replaceAllGo, splitPartsGo, interL]
  | succ n ih =>
    intro s hs
    cases s with
    | nil => simp [replaceAllGo, splitPartsGo, interL]
    | cons c cs =>
      simp only [replaceAllGo, splitPartsGo]
      split
      · rename_i h
        obtain ⟨hne, hpre⟩ := scanGuard_iff.mp h
        have h1 : 1 ≤ pat.length := List.length_pos.mpr hne
        have hlen : ((c :: cs).drop pat.length).length ≤ n := by
          simp only [List.length_drop, List.length_cons]
          simp only [List.length_cons] at hs
          omega
        rw [interL_cons_ne_nil repl [] (splitPartsGo_ne_nil pat n _), ih _ hlen]
        simp
      · have hcs : cs.length ≤ n := by
          simp only [List.length_cons] at hs; omega
        rcases hsp : splitPartsGo pat n cs with _ | ⟨p, ps⟩
        · exact absurd hsp (splitPartsGo_ne_nil pat n cs)
        · rw [interL_cons_cons_head, ← hsp, ih _ hcs]

theorem replaceAllL_eq_interL (pat repl s : List Char) :
    replaceAllL pat repl s = interL repl (splitPartsL pat s) :=
  replaceAllGo_eq_interL pat repl s.length s le_rfl

theorem jsStrictEq_symm (a b : JSVal) : jsStrictEq a b = jsStrictEq b a := by
  cases a <;> cases b <;> simp [jsStrictEq] <;> exact ⟨fun h => h.symm, fun h => h.symm⟩

theorem fieldStrictEq_vStr_iff {item : JSVal} {name t : String} :
    fieldStrictEq item name (.vStr t) = true ↔ getField item name = some (.vStr t) := by
  unfold fieldStrictEq
  rcases h : getField item name with _ | w
  · simp
  · simp only [Option.some.injEq]
    constructor
    · intro hw
      exact (jsStrictEq_eq_true_iff hw).symm ▸ rfl
    · rintro rfl
      exact jsStrictEq_refl_vStr t

theorem string_data_ne_nil {s : String} (h : s ≠ "") : s.data ≠ [] := by
  intro hd
  apply h
  cases s with
  | mk data =>
    have hdata : data = [] := hd
    subst hdata
    rfl

theorem string_not_isEmpty {s : String} (h : s ≠ "") : (!s.isEmpty) = true := by
  cases hs : s.isEmpty with
  | false => rfl
  | true => exact absurd ((String.isEmpty_iff s).mp hs) h

theorem truthy_vStr_of_ne {s : String} (h : s ≠ "") :
    truthy (JSVal.vStr s) = true :=
  string_not_isEmpty h

/- ### Discovery: `discoverLoop` computes `loadedNames` and `matchedNames` -/

theorem discoverLoop_eq (cfg : FilterConfig) (loads : List (String × Except String JSVal)) :
    discoverLoop cfg loads = (loadedNames loads, matchedNames cfg loads) := by
  induction loads with
  | nil => rfl
  | cons p rest ih =>
    obtain ⟨name, r⟩ := p
    cases r with
    | error e =>
      simpa [discoverLoop, loadedNames, matchedNames, List.filterMap_cons] using ih
    | ok d =>
      simp only [discoverLoop, loadedNames, matchedNames, List.filterMap_cons, ih]
      cases hfc : fileContainsFilteredContent cfg d <;>
        simp [hfc, loadedNames, matchedNames]

theorem matchedNames_sublist_loadedNames (cfg : FilterConfig)
    (loads : List (String × Except String JSVal)) :
    (matchedNames cfg loads).Sublist (loadedNames loads) := by
  induction loads with
  | nil => simp [matchedNames, loadedNames]
  | cons p rest ih =>
    obtain ⟨name, r⟩ := p
    cases r with
    | error e => simpa [matchedNames, loadedNames, List.filterMap_cons] using ih
    | ok d =>
      simp only [matchedNames, loadedNames, List.filterMap_cons]
      cases hfc : fileContainsFilteredContent cfg d
      · simpa using ih.cons name
      · simpa using ih.cons₂ name

theorem loadedNames_sublist_candidates (loads : List (String × Except String JSVal)) :
    (loadedNames loads).Sublist (loads.map Prod.fst) := by
  induction loads with
  | nil => simp [loadedNames]
  | cons p rest ih =>
    obtain ⟨name, r⟩ := p
    cases r with
    | error e => simpa [loadedNames, List.filterMap_cons] using ih.cons name
    | ok d => simpa [loadedNames, List.filterMap_cons] using ih.cons₂ name

theorem tryLoadingFiles_some_ne_nil {cfg : FilterConfig}
    {loads : List (String × Except String JSVal)} {disp : List String}
    (h : tryLoadingFiles cfg loads = some disp) : disp ≠ [] := by
  unfold tryLoadingFiles at h
  rw [discoverLoop_eq] at h
  cases hl : (loadedNames loads).isEmpty with
  | true => simp [hl] at h
  | false =>
    cases hm : (matchedNames cfg loads).isEmpty with
    | true =>
      simp [hl, hm] at h
      subst h
      exact fun hd => by simp [hd] at hl
    | false =>
      simp [hl, hm] at h
      subst h
      exact fun hd => by simp [hd] at hm

/- ### Category derivation: order, dedup and membership lemmas -/

theorem strLeL_total : ∀ a b : List Char, strLeL a b = true ∨ strLeL b a = true := by
  intro a
  induction a with
  | nil => intro b; left; rfl
  | cons x xs ih =>
    intro b
    cases b with
    | nil => right; rfl
    | cons y ys =>
      simp only [strLeL]
      by_cases hxy : x = y
      · rw [if_pos hxy, if_pos hxy.symm]
        exact ih ys
      · rcases lt_or_gt_of_ne hxy with h | h
        · left
          rw [if_neg hxy]
          exact decide_eq_true h
        · right
          rw [if_neg (Ne.symm hxy)]
          exact decide_eq_true h

theorem strLeL_trans : ∀ a b c : List Char,
    strLeL a b = true → strLeL b c = true → strLeL a c = true := by
  intro a
  induction a with
  | nil => intro b c _ _; rfl
  | cons x xs ih =>
    intro b c hab hbc
    cases b with
    | nil => simp [strLeL] at hab
    | cons y ys =>
      cases c with
      | nil => simp [strLeL] at hbc
      | cons z zs =>
        simp only [strLeL] at hab hbc ⊢
        by_cases hxy : x = y <;> by_cases hyz : y = z
        · rw [if_pos hxy] at hab
          rw [if_pos hyz] at hbc
          rw [if_pos (hxy.trans hyz)]
          exact ih ys zs hab hbc
        · rw [if_neg hyz] at hbc
          have hxz : ¬ x = z := by rw [hxy]; exact hyz
          rw [if_neg hxz]
          exact decide_eq_true (by rw [hxy]; exact of_decide_eq_true hbc)
        · rw [if_neg hxy] at hab
          have hxz : ¬ x = z := by rw [← hyz]; exact hxy
          rw [if_neg hxz]
          exact decide_eq_true (by rw [← hyz]; exact of_decide_eq_true hab)
        · rw [if_neg hxy] at hab
          rw [if_neg hyz] at hbc
          have h3 : x < z := lt_trans (of_decide_eq_true hab) (of_decide_eq_true hbc)
          rw [if_neg (ne_of_lt h3)]
          exact decide_eq_true h3

instance : IsTotal JSVal jsKeyLe :=
  ⟨fun a b => strLeL_total (jsKey a).data (jsKey b).data⟩

instance : IsTrans JSVal jsKeyLe :=
  ⟨fun a b c => strLeL_trans (jsKey a).data (jsKey b).data (jsKey c).data⟩

theorem mem_setDedup : ∀ (seen l : List JSVal) (t : JSVal),
    t ∈ setDedup seen l ↔ (t ∈ l ∧ seen.any (jsStrictEq t) = false) := by
  intro seen l
  induction l generalizing seen with
  | nil => intro t; simp [setDedup]
  | cons x xs ih =>
    intro t
    simp only [setDedup]
    split
    · rename_i hx
      rw [ih seen t]
      constructor
      · rintro ⟨h1, h2⟩
        exact ⟨List.mem_cons_of_mem x h1, h2⟩
      · rintro ⟨h1, h2⟩
        rcases List.mem_cons.mp h1 with rfl | h1
        · exact absurd hx (by simp [h2])
        · exact ⟨h1, h2⟩
    · rename_i hx
      constructor
      · intro hmem
        rcases List.mem_cons.mp hmem with rfl | h1
        · exact ⟨List.mem_cons_self t xs, by simpa using hx⟩
        · rw [ih (x :: seen) t] at h1
          obtain ⟨hin, hany⟩ := h1
          rw [List.any_cons] at hany
          have hseen : Bool.or (jsStrictEq t x) (seen.any (jsStrictEq t)) = false := hany
          rcases Bool.or_eq_false_iff.mp hseen with ⟨-, h2⟩
          exact ⟨List.mem_cons_of_mem x hin, h2⟩
      · rintro ⟨h1, h2⟩
        by_cases hteqx : t = x
        · subst hteqx
          exact List.mem_cons_self t _
        · rcases List.mem_cons.mp h1 with rfl | h1
          · exact absurd rfl hteqx
          · apply List.mem_cons_of_mem
            rw [ih (x :: seen) t]
            refine ⟨h1, ?_⟩
            have hx0 : jsStrictEq t x = false := by
              cases hst : jsStrictEq t x
              · rfl
              · exact absurd (jsStrictEq_eq_true_iff hst) hteqx
            rw [List.any_cons, hx0, h2]
            rfl

theorem setDedup_pairwise : ∀ (seen l : List JSVal),
    List.Pairwise (fun a b => jsStrictEq a b = false) (setDedup seen l) := by
  intro seen l
  induction l generalizing seen with
  | nil => simp [setDedup]
  | cons x xs ih =>
    simp only [setDedup]
    split
    · exact ih seen
    · refine List.Pairwise.cons ?_ (ih (x :: seen))
      intro y hy
      rw [mem_setDedup] at hy
      obtain ⟨-, hany⟩ := hy
      rw [List.any_cons] at hany
      rcases Bool.or_eq_false_iff.mp hany with ⟨h1, -⟩
      rw [jsStrictEq_symm]
      exact h1

theorem mem_collectTypes {items : List JSVal} {t : JSVal} :
    t ∈ collectTypes items ↔
      ∃ item ∈ items, truthy item = true ∧ isObjectType item = true ∧
        getField item "type" = some t ∧ truthy t = true := by
  unfold collectTypes
  rw [List.mem_filterMap]
  constructor
  · rintro ⟨item, hin, hf⟩
    rcases hg : getField item "type" with _ | tv
    · rw [hg] at hf
      exact absurd hf (by simp)
    · rw [hg] at hf
      have hf2 : (if (truthy item && isObjectType item && truthy tv) = true
          then some tv else none) = some t := hf
      split at hf2
      · rename_i hc
        injection hf2 with htv
        subst htv
        simp only [Bool.and_eq_true] at hc
        exact ⟨item, hin, hc.1.1, hc.1.2, hg, hc.2⟩
      · exact absurd hf2 (by simp)
  · rintro ⟨item, hin, h1, h2, h3, h4⟩
    refine ⟨item, hin, ?_⟩
    rw [h3]
    simp [h1, h2, h4]

theorem mem_categoriesOf {items : List JSVal} {t : JSVal} :
    t ∈ categoriesOf items ↔
      ∃ item ∈ items, truthy item = true ∧ isObjectType item = true ∧
        getField item "type" = some t ∧ truthy t = true := by
  unfold categoriesOf
  rw [(List.perm_insertionSort jsKeyLe _).mem_iff, mem_setDedup]
  rw [← mem_collectTypes]
  simp

theorem categoriesOf_sorted (items : List JSVal) :
    List.Sorted jsKeyLe (categoriesOf items) :=
  List.sorted_insertionSort jsKeyLe _

theorem categoriesOf_pairwise (items : List JSVal) :
    List.Pairwise (fun a b => jsStrictEq a b = false) (categoriesOf items) := by
  have hsym : ∀ {a b : JSVal}, jsStrictEq a b = false → jsStrictEq b a = false := by
    intro a b h
    rw [jsStrictEq_symm]
    exact h
  exact (List.Perm.pairwise_iff hsym
    (List.perm_insertionSort jsKeyLe (setDedup [] (collectTypes items)))).mpr
    (setDedup_pairwise [] _)

/- ### Rendering lemmas -/

theorem string_mk_data (s : String) : String.mk s.data = s := rfl

theorem summaryMatches_skip {cfg : FilterConfig} {item : JSVal}
    (hs : truthyOpt (getField item "summary") = false) :
    summaryMatches cfg item = some false := by
  unfold summaryMatches
  rcases hg : getField item "summary" with _ | sv
  · rfl
  · rw [hg] at hs
    have hf : truthy sv = false := hs
    simp [hf]

theorem renderBlock_skip {cfg : FilterConfig} {t item : JSVal}
    (hs : truthyOpt (getField item "summary") = false) :
    renderBlock cfg t item = some none := by
  unfold renderBlock
  rcases hg : getField item "summary" with _ | sv
  · rfl
  · rw [hg] at hs
    have hf : truthy sv = false := hs
    simp [hf]

theorem renderBlocks_append_skip (cfg : FilterConfig) (t : JSVal) {e : JSVal}
    (he : renderBlock cfg t e = some none) :
    ∀ (A B : List JSVal),
      renderBlocks cfg t (A ++ e :: B) = renderBlocks cfg t (A ++ B) := by
  intro A
  induction A with
  | nil =>
    intro B
    simp only [List.nil_append, renderBlocks, he]
  | cons a as ih =>
    intro B
    simp only [List.cons_append, renderBlocks, List.append_eq, ih]

theorem jsSomeM_append_skip {α : Type} (p : α → Option Bool) {e : α}
    (he : p e = some false) :
    ∀ (A B : List α), jsSomeM p (A ++ e :: B) = jsSomeM p (A ++ B) := by
  intro A
  induction A with
  | nil =>
    intro B
    simp only [List.nil_append, jsSomeM, he]
  | cons a as ih =>
    intro B
    simp only [List.cons_append, jsSomeM, List.append_eq, ih]

theorem string_isEmpty_false {s : String} (h : s ≠ "") : s.isEmpty = false := by
  cases hs : s.isEmpty
  · rfl
  · exact absurd ((String.isEmpty_iff s).mp hs) h

theorem renderBlocks_cons_eq (cfg : FilterConfig) (t item : JSVal) (rest : List JSVal) :
    renderBlocks cfg t (item :: rest) =
      match renderBlock cfg t item with
      | none => none
      | some none => renderBlocks cfg t rest
      | some (some b) => (renderBlocks cfg t rest).map (b :: ·) := rfl

theorem renderBlock_none_summary {cfg : FilterConfig} {t item : JSVal}
    (hg : getField item "summary" = none) :
    renderBlock cfg t item = some none :=
  renderBlock_skip (by rw [truthyOpt.eq_def, hg])

theorem renderBlock_falsy {cfg : FilterConfig} {t item sv : JSVal}
    (hg : getField item "summary" = some sv) (htv : truthy sv = false) :
    renderBlock cfg t item = some none :=
  renderBlock_skip (by rw [truthyOpt.eq_def, hg]; exact htv)

theorem renderBlock_offtarget_truthy {cfg : FilterConfig} {tn : String} {item sv : JSVal}
    (hne : tn ≠ cfg.typeFilter) (hg : getField item "summary" = some sv)
    (htv : truthy sv = true) :
    renderBlock cfg (.vStr tn) item = some (some sv) := by
  unfold renderBlock
  rw [hg]
  have hstr : jsStrictEq (JSVal.vStr tn) (JSVal.vStr cfg.typeFilter) = false := by
    simp only [jsStrictEq, beq_eq_false_iff_ne, ne_eq]
    exact hne
  simp [htv, hstr]

theorem renderBlock_target_vStr {cfg : FilterConfig} {item : JSVal} {s : String}
    (hf : cfg.contentFilter ≠ "") (hg : getField item "summary" = some (.vStr s))
    (htv : truthy (JSVal.vStr s) = true) :
    renderBlock cfg (.vStr cfg.typeFilter) item =
      some (some (.vStr (if jsIncludes s cfg.contentFilter then
        replaceAllStr s cfg.contentFilter (highlightSpan cfg.contentFilter)
      else s))) := by
  unfold renderBlock
  rw [hg]
  simp [htv, string_isEmpty_false hf, jsStrictEq_refl_vStr]

theorem renderBlock_target_nonstr {cfg : FilterConfig} {item sv : JSVal}
    (hf : cfg.contentFilter ≠ "") (hg : getField item "summary" = some sv)
    (htv : truthy sv = true) (hns : isStringVal sv = false) :
    renderBlock cfg (.vStr cfg.typeFilter) item = none := by
  unfold renderBlock
  rw [hg]
  cases sv with
  | vStr s => exact absurd hns (by simp [isStringVal])
  | vNull => exact absurd htv (by simp [truthy])
  | vBool b => simp [htv, string_isEmpty_false hf, jsStrictEq_refl_vStr]
  | vNum n => simp [htv, string_isEmpty_false hf, jsStrictEq_refl_vStr]
  | vArr a => simp [htv, string_isEmpty_false hf, jsStrictEq_refl_vStr]
  | vObj f => simp [htv, string_isEmpty_false hf, jsStrictEq_refl_vStr]

theorem renderBlocks_offtarget {cfg : FilterConfig} {tn : String}
    (hne : tn ≠ cfg.typeFilter) :
    ∀ (l blocks : List JSVal),
      renderBlocks cfg (.vStr tn) l = some blocks → blocks = truthySummaries l := by
  intro l
  induction l with
  | nil =>
    intro blocks h
    have h2 : some ([] : List JSVal) = some blocks := h
    injection h2 with h2
    rw [← h2]
    rfl
  | cons item rest ih =>
    intro blocks h
    rcases hg : getField item "summary" with _ | sv
    · rw [renderBlocks_cons_eq, renderBlock_none_summary hg] at h
      have h2 : renderBlocks cfg (.vStr tn) rest = some blocks := h
      rw [ih blocks h2]
      simp [truthySummaries, List.filterMap_cons, hg]
    · cases htv : truthy sv
      · rw [renderBlocks_cons_eq, renderBlock_falsy hg htv] at h
        have h2 : renderBlocks cfg (.vStr tn) rest = some blocks := h
        rw [ih blocks h2]
        simp [truthySummaries, List.filterMap_cons, hg, htv]
      · rw [renderBlocks_cons_eq, renderBlock_offtarget_truthy hne hg htv] at h
        have h2 : (renderBlocks cfg (.vStr tn) rest).map (sv :: ·) = some blocks := h
        obtain ⟨bs, hrb, hb⟩ := Option.map_eq_some'.mp h2
        rw [← hb, ih bs hrb]
        simp [truthySummaries, List.filterMap_cons, hg, htv]

theorem highlightRel_of_block {cfg : FilterConfig} (hf : cfg.contentFilter ≠ "")
    (s : String) :
    highlightRel cfg (.vStr s)
      (.vStr (if jsIncludes s cfg.contentFilter then
        replaceAllStr s cfg.contentFilter (highlightSpan cfg.contentFilter)
      else s)) := by
  cases hinc : jsIncludes s cfg.contentFilter
  · refine ⟨s, [s.data], rfl, ?_, ?_, ?_⟩
    · intro p hp
      rcases List.mem_singleton.mp hp with rfl
      exact hinc
    · rfl
    · simp only [hinc, Bool.false_eq_true, if_false]
      rfl
  · refine ⟨s, splitPartsL cfg.contentFilter.data s.data, rfl, ?_, ?_, ?_⟩
    · exact splitPartsL_parts_free (string_data_ne_nil hf) s.data
    · exact (interL_splitPartsL cfg.contentFilter.data s.data).symm
    · simp only [hinc, if_true]
      unfold replaceAllStr
      rw [replaceAllL_eq_interL]

theorem renderBlocks_target {cfg : FilterConfig} (hf : cfg.contentFilter ≠ "") :
    ∀ (l blocks : List JSVal),
      renderBlocks cfg (.vStr cfg.typeFilter) l = some blocks →
      List.Forall₂ (highlightRel cfg) (truthySummaries l) blocks := by
  intro l
  induction l with
  | nil =>
    intro blocks h
    have h2 : some ([] : List JSVal) = some blocks := h
    injection h2 with h2
    rw [← h2]
    exact List.Forall₂.nil
  | cons item rest ih =>
    intro blocks h
    rcases hg : getField item "summary" with _ | sv
    · rw [renderBlocks_cons_eq, renderBlock_none_summary hg] at h
      have h2 : renderBlocks cfg (.vStr cfg.typeFilter) rest = some blocks := h
      have hrec := ih blocks h2
      simpa [truthySummaries, List.filterMap_cons, hg] using hrec
    · cases htv : truthy sv
      · rw [renderBlocks_cons_eq, renderBlock_falsy hg htv] at h
        have h2 : renderBlocks cfg (.vStr cfg.typeFilter) rest = some blocks := h
        have hrec := ih blocks h2
        simpa [truthySummaries, List.filterMap_cons, hg, htv] using hrec
      · cases hstr : isStringVal sv
        · rw [renderBlocks_cons_eq, renderBlock_target_nonstr hf hg htv hstr] at h
          exact Option.noConfusion h
        · obtain ⟨s, rfl⟩ : ∃ s, sv = JSVal.vStr s := by
            cases sv <;> simp [isStringVal] at hstr
            exact ⟨_, rfl⟩
          rw [renderBlocks_cons_eq, renderBlock_target_vStr hf hg htv] at h
          have h2 : (renderBlocks cfg (.vStr cfg.typeFilter) rest).map
              ((JSVal.vStr (if jsIncludes s cfg.contentFilter then
                replaceAllStr s cfg.contentFilter (highlightSpan cfg.contentFilter)
              else s)) :: ·) = some blocks := h
          obtain ⟨bs, hrb, hb⟩ := Option.map_eq_some'.mp h2
          rw [← hb]
          simp only [truthySummaries, List.filterMap_cons, hg, htv, if_true]
          exact List.Forall₂.cons (highlightRel_of_block hf s) (ih bs hrb)

/- ### Clean documents: no call ever throws -/

theorem entryClean_summary_string {item : JSVal} (hc : entryClean item = true)
    {sv : JSVal} (hg : getField item "summary" = some sv) (ht : truthy sv = true) :
    ∃ s, sv = JSVal.vStr s := by
  unfold entryClean fieldClean at hc
  rw [hg] at hc
  simp only [Bool.and_eq_true] at hc
  obtain ⟨h1, -⟩ := hc
  rw [ht] at h1
  simp only [Bool.not_true, Bool.false_or] at h1
  cases sv with
  | vStr s => exact ⟨s, rfl⟩
  | vNull => exact absurd h1 (by simp [isStringVal])
  | vBool b => exact absurd h1 (by simp [isStringVal])
  | vNum n => exact absurd h1 (by simp [isStringVal])
  | vArr a => exact absurd h1 (by simp [isStringVal])
  | vObj f => exact absurd h1 (by simp [isStringVal])

theorem entryClean_type_string {item : JSVal} (hc : entryClean item = true)
    {tv : JSVal} (hg : getField item "type" = some tv) (ht : truthy tv = true) :
    ∃ s, tv = JSVal.vStr s := by
  unfold entryClean fieldClean at hc
  rw [hg] at hc
  simp only [Bool.and_eq_true] at hc
  obtain ⟨-, h1⟩ := hc
  rw [ht] at h1
  simp only [Bool.not_true, Bool.false_or] at h1
  cases tv with
  | vStr s => exact ⟨s, rfl⟩
  | vNull => exact absurd h1 (by simp [isStringVal])
  | vBool b => exact absurd h1 (by simp [isStringVal])
  | vNum n => exact absurd h1 (by simp [isStringVal])
  | vArr a => exact absurd h1 (by simp [isStringVal])
  | vObj f => exact absurd h1 (by simp [isStringVal])

theorem summaryMatches_clean {cfg : FilterConfig} {item : JSVal}
    (hc : entryClean item = true) :
    ∃ b, summaryMatches cfg item = some b := by
  unfold summaryMatches
  rcases hg : getField item "summary" with _ | sv
  · exact ⟨false, rfl⟩
  · cases htv : truthy sv
    · simp only [htv, Bool.false_eq_true, if_false]
      exact ⟨false, rfl⟩
    · obtain ⟨s, rfl⟩ := entryClean_summary_string hc hg htv
      simp only [htv, if_true]
      exact ⟨jsIncludes s cfg.contentFilter, rfl⟩

theorem jsSomeM_clean {cfg : FilterConfig} :
    ∀ (l : List JSVal), (∀ i ∈ l, entryClean i = true) →
      ∃ b, jsSomeM (summaryMatches cfg) l = some b := by
  intro l
  induction l with
  | nil => exact fun _ => ⟨false, rfl⟩
  | cons x xs ih =>
    intro hall
    obtain ⟨b, hb⟩ := @summaryMatches_clean cfg x (hall x (List.mem_cons_self x xs))
    cases b with
    | true =>
      simp only [jsSomeM, hb]
      exact ⟨true, rfl⟩
    | false =>
      obtain ⟨b2, hb2⟩ := ih (fun i hi => hall i (List.mem_cons_of_mem x hi))
      simp only [jsSomeM, hb, hb2]
      exact ⟨b2, rfl⟩

theorem renderBlock_clean {cfg : FilterConfig} {t item : JSVal}
    (hc : entryClean item = true) :
    ∃ ob, renderBlock cfg t item = some ob := by
  unfold renderBlock
  rcases hg : getField item "summary" with _ | sv
  · exact ⟨none, rfl⟩
  · cases htv : truthy sv
    · simp only [htv, Bool.false_eq_true, if_false]
      exact ⟨none, rfl⟩
    · obtain ⟨s, rfl⟩ := entryClean_summary_string hc hg htv
      simp only [htv, if_true]
      split
      · exact ⟨_, rfl⟩
      · exact ⟨_, rfl⟩

theorem renderBlocks_clean {cfg : FilterConfig} {t : JSVal} :
    ∀ (l : List JSVal), (∀ i ∈ l, entryClean i = true) →
      ∃ bs, renderBlocks cfg t l = some bs := by
  intro l
  induction l with
  | nil => exact fun _ => ⟨[], rfl⟩
  | cons x xs ih =>
    intro hall
    obtain ⟨ob, hob⟩ := @renderBlock_clean cfg t x (hall x (List.mem_cons_self x xs))
    obtain ⟨bs, hbs⟩ := ih (fun i hi => hall i (List.mem_cons_of_mem x hi))
    cases ob with
    | none =>
      rw [renderBlocks_cons_eq, hob]
      exact ⟨bs, hbs⟩
    | some b =>
      rw [renderBlocks_cons_eq, hob]
      exact ⟨b :: bs, by rw [hbs]; rfl⟩

theorem matchingPred_clean {cfg : FilterConfig} {item : JSVal}
    (hc : entryClean item = true) :
    matchingPred cfg item = some (entryMatchesFilter cfg item) := by
  unfold matchingPred entryMatchesFilter
  cases hT : (truthy item && isObjectType item &&
      fieldStrictEq item "type" (.vStr cfg.typeFilter))
  · simp [hT]
  · simp only [hT, if_true, Bool.true_and]
    rcases hg : getField item "summary" with _ | sv
    · simp
    · cases htv : truthy sv
      · simp only [htv, Bool.false_eq_true, if_false]
        cases sv with
        | vStr s =>
          have hse : s.isEmpty = true := by
            have : (!s.isEmpty) = false := htv
            cases hh : s.isEmpty
            · rw [hh] at this; exact absurd this (by simp)
            · rfl
          simp [hse]
        | vNull => simp
        | vBool b => simp
        | vNum n => simp
        | vArr a => simp
        | vObj f => simp
      · obtain ⟨s, rfl⟩ := entryClean_summary_string hc hg htv
        have hse : (!s.isEmpty) = true := htv
        simp [htv, hse]

theorem jsFilterM_matching_clean {cfg : FilterConfig} :
    ∀ (items : List JSVal), docClean items = true →
      jsFilterM (matchingPred cfg) items =
        some (items.filter (entryMatchesFilter cfg)) := by
  intro items
  induction items with
  | nil => intro _; rfl
  | cons x xs ih =>
    intro hc
    unfold docClean at hc
    rw [List.all_cons, Bool.and_eq_true] at hc
    obtain ⟨hx, hxs⟩ := hc
    have hrec := ih hxs
    simp only [jsFilterM, matchingPred_clean hx, List.filter_cons]
    cases he : entryMatchesFilter cfg x
    · simp only [he, Bool.false_eq_true, if_false]
      exact hrec
    · simp only [he, if_true, hrec]
      rfl

/- ### `displayContentByType`: branch characterisations -/

theorem displayContentByType_noContent {cfg : FilterConfig} {selectedFile : String}
    {items : List JSVal} {c : JSVal} (h : contentItemsOf items c = []) :
    displayContentByType cfg selectedFile items c = some (.noContent c) := by
  unfold displayContentByType
  simp [h]

theorem contentItemsOf_clean {items : List JSVal} {t : JSVal}
    (hclean : docClean items = true) :
    ∀ i ∈ contentItemsOf items t, entryClean i = true := by
  intro i hi
  unfold docClean at hclean
  rw [List.all_eq_true] at hclean
  exact hclean i (List.mem_of_mem_filter hi)

theorem displayContentByType_total_clean {cfg : FilterConfig} {selectedFile : String}
    {items : List JSVal} (hclean : docClean items = true) (tn : String) :
    ∃ out, displayContentByType cfg selectedFile items (.vStr tn) = some out := by
  unfold displayContentByType
  cases hE : (contentItemsOf items (.vStr tn)).isEmpty
  · obtain ⟨b, hb⟩ := @jsSomeM_clean cfg (contentItemsOf items (.vStr tn))
      (@contentItemsOf_clean items (.vStr tn) hclean)
    obtain ⟨bs, hbs⟩ := @renderBlocks_clean cfg (.vStr tn)
      (contentItemsOf items (.vStr tn)) (@contentItemsOf_clean items (.vStr tn) hclean)
    simp only [hE, Bool.false_eq_true, if_false, hb, hbs]
    exact ⟨_, rfl⟩
  · simp only [hE, if_true]
    exact ⟨_, rfl⟩

theorem displayContentByType_content_inv {cfg : FilterConfig} {selectedFile : String}
    {items : List JSVal} {tn : String} {hd : String} {co : Bool} {blocks : List JSVal}
    (h : displayContentByType cfg selectedFile items (.vStr tn) =
      some (.content hd co blocks)) :
    renderBlocks cfg (.vStr tn) (contentItemsOf items (.vStr tn)) = some blocks := by
  unfold displayContentByType at h
  cases hE : (contentItemsOf items (.vStr tn)).isEmpty
  · rw [hE] at h
    simp only [Bool.false_eq_true, if_false] at h
    rcases hsm : jsSomeM (summaryMatches cfg) (contentItemsOf items (.vStr tn)) with _ | b
    · rw [hsm] at h
      exact Option.noConfusion h
    · rw [hsm] at h
      rcases hrb : renderBlocks cfg (.vStr tn) (contentItemsOf items (.vStr tn)) with _ | bs
      · rw [hrb] at h
        exact Option.noConfusion h
      · rw [hrb] at h
        have h2 : some (RenderOutput.content
            (repoNameOf selectedFile ++ " - " ++ titleCase tn)
            (jsStrictEq (.vStr tn) (.vStr cfg.typeFilter) && b) bs) =
            some (RenderOutput.content hd co blocks) := h
        injection h2 with h2
        injection h2 with _ _ h3
        rw [h3]
  · rw [hE] at h
    simp only [if_true] at h
    have h2 : some (RenderOutput.noContent (.vStr tn)) =
        some (RenderOutput.content hd co blocks) := h
    injection h2 with h2
    exact RenderOutput.noConfusion h2

/- ### Title derivation: the scan equals the positional description -/

theorem specCapChar_eq (c : Char) (po : Option Char) :
    specCapChar (c, po) =
      (if !(match po with | none => false | some p => wordChar p) && wordChar c
       then c.toUpper else c) := by
  cases po <;> simp [specCapChar, Bool.and_comm]

theorem upWordStarts_zip :
    ∀ (l : List Char) (po : Option Char),
      upWordStarts (match po with | none => false | some p => wordChar p) l =
        (l.zip (po :: l.map some)).map specCapChar := by
  intro l
  induction l with
  | nil => intro po; rfl
  | cons c cs ih =>
    intro po
    simp only [List.map_cons, List.zip_cons_cons, upWordStarts]
    congr 1
    · rw [specCapChar_eq]
    · exact ih (some c)

theorem titleCase_eq_specTitleCase (s : String) : titleCase s = specTitleCase s :=
  congrArg String.mk
    (upWordStarts_zip (s.data.map fun c => if c = '_' then ' ' else c) none)

/- ### `displaySelectedContent`: reduction on an array document -/

theorem displaySelectedContent_arr_eq (cfg : FilterConfig) (file : String)
    (items : List JSVal) :
    displaySelectedContent cfg file (some (.vArr items)) =
      match jsFilterM (matchingPred cfg) items with
      | none => none
      | some matching =>
        if !matching.isEmpty then
          (displayContentByType cfg file items (.vStr cfg.typeFilter)).map
            (.rendered (.vStr cfg.typeFilter))
        else
          match items with
          | [] => some .emptyFile
          | first :: _ =>
            if truthy first && isObjectType first && truthyOpt (getField first "type") then
              match getField first "type" with
              | some tv => (displayContentByType cfg file items tv).map (.rendered tv)
              | none => some .nothingRendered
            else some .nothingRendered := rfl

theorem displaySelectedContent_match {cfg : FilterConfig} {file : String}
    {items : List JSVal} (hclean : docClean items = true)
    (hmatch : items.any (entryMatchesFilter cfg) = true) :
    ∃ out, displaySelectedContent cfg file (some (.vArr items)) =
      some (.rendered (.vStr cfg.typeFilter) out) := by
  obtain ⟨out, hout⟩ := @displayContentByType_total_clean cfg file items hclean
    cfg.typeFilter
  refine ⟨out, ?_⟩
  rw [displaySelectedContent_arr_eq, jsFilterM_matching_clean items hclean]
  have hne : (items.filter (entryMatchesFilter cfg)).isEmpty = false := by
    cases hfe : (items.filter (entryMatchesFilter cfg)).isEmpty
    · rfl
    · rw [List.isEmpty_iff] at hfe
      rw [List.filter_eq_nil] at hfe
      obtain ⟨x, hx, hpx⟩ := List.any_eq_true.mp hmatch
      exact absurd hpx (by simpa using hfe x hx)
  simp only [hne, Bool.not_false, if_true, hout, Option.map_some']

theorem displaySelectedContent_nomatch_first {cfg : FilterConfig} {file : String}
    (first : JSVal) (rest : List JSVal) (hclean : docClean (first :: rest) = true)
    (hmatch : (first :: rest).any (entryMatchesFilter cfg) = false) :
    (firstEntryRenderable first = true →
      ∃ tv out, getField first "type" = some tv ∧
        displaySelectedContent cfg file (some (.vArr (first :: rest))) =
          some (.rendered tv out))
    ∧ (firstEntryRenderable first = false →
        displaySelectedContent cfg file (some (.vArr (first :: rest))) =
          some .nothingRendered) := by
  have hfil : (first :: rest).filter (entryMatchesFilter cfg) = [] :=
    List.filter_eq_nil.mpr fun a ha => by
      simpa using List.any_eq_false.mp hmatch a ha
  have hred : displaySelectedContent cfg file (some (.vArr (first :: rest))) =
      (if truthy first && isObjectType first && truthyOpt (getField first "type") then
        match getField first "type" with
        | some tv =>
          (displayContentByType cfg file (first :: rest) tv).map (.rendered tv)
        | none => some .nothingRendered
      else some .nothingRendered) := by
    rw [displaySelectedContent_arr_eq, jsFilterM_matching_clean _ hclean, hfil]
    rfl
  constructor
  · intro hren
    have hren2 : (truthy first && isObjectType first &&
        truthyOpt (getField first "type")) = true := hren
    rcases hgf : getField first "type" with _ | tv
    · rw [firstEntryRenderable, hgf] at hren
      simp [truthyOpt] at hren
    · have htt : truthy tv = true := by
        have h3 := hren2
        rw [hgf] at h3
        simp only [Bool.and_eq_true] at h3
        exact h3.2
      obtain ⟨ts, rfl⟩ := entryClean_type_string
        (by
          unfold docClean at hclean
          rw [List.all_cons, Bool.and_eq_true] at hclean
          exact hclean.1) hgf htt
      obtain ⟨out, hout⟩ := @displayContentByType_total_clean cfg file
        (first :: rest) hclean ts
      refine ⟨.vStr ts, out, rfl, ?_⟩
      rw [hgf] at hren2
      rw [hred, hgf]
      simp [hren2, hout]
  · intro hren
    have hren2 : (truthy first && isObjectType first &&
        truthyOpt (getField first "type")) = false := hren
    rw [hred]
    simp only [hren2, Bool.false_eq_true, if_false]

theorem displaySelectedContent_empty (cfg : FilterConfig) (file : String) :
    displaySelectedContent cfg file (some (.vArr [])) = some .emptyFile := rfl

/- ### `handleFileSelection`: the load-failure path -/

theorem sampleOrLoad_failure {sampleData : List (String × JSVal)} {fileName msg : String}
    (hs : truthyOpt (lookupField sampleData fileName) = false) :
    sampleOrLoad sampleData fileName (.error msg) = .error msg := by
  unfold sampleOrLoad
  rcases hl : lookupField sampleData fileName with _ | v
  · rfl
  · rw [hl] at hs
    have hv : truthy v = false := hs
    show (if truthy v = true then Except.ok v else Except.error msg) = Except.error msg
    rw [hv]
    rfl

theorem handleFileSelection_failure {cfg : FilterConfig}
    {sampleData : List (String × JSVal)} {fileName msg : String} {st : ViewerState}
    (hs : truthyOpt (lookupField sampleData fileName) = false) :
    handleFileSelection cfg sampleData (.error msg) fileName st =
      { st with statusMessage := some ("Error: " ++ msg) } := by
  unfold handleFileSelection
  rw [sampleOrLoad_failure hs]

/- ### Small list helpers -/

theorem isEmpty_false_iff {α : Type} {l : List α} : l.isEmpty = false ↔ l ≠ [] := by
  cases l <;> simp

/- ### The claims -/

/-- C1: for every run of file discovery, if the subset of candidate files
matching the filter is non-empty the exposed file list is exactly the
matched files; if the matched subset is empty but some candidates loaded
successfully the list is all successfully loaded files; and the exposed
list preserves discovery order (it is a sublist of the candidate order). -/
theorem c1_discovery_display_policy (cfg : FilterConfig)
    (loads : List (String × Except String JSVal)) :
    (matchedNames cfg loads ≠ [] →
      tryLoadingFiles cfg loads = some (matchedNames cfg loads))
    ∧ (matchedNames cfg loads = [] → loadedNames loads ≠ [] →
      tryLoadingFiles cfg loads = some (loadedNames loads))
    ∧ (∀ disp, tryLoadingFiles cfg loads = some disp →
        disp.Sublist (loads.map Prod.fst)) := by
  have hml := matchedNames_sublist_loadedNames cfg loads
  have hlc := loadedNames_sublist_candidates loads
  refine ⟨?_, ?_, ?_⟩
  · intro hm
    have hl : loadedNames loads ≠ [] := by
      intro h0
      rw [h0] at hml
      exact hm (List.sublist_nil.mp hml)
    unfold tryLoadingFiles
    rw [discoverLoop_eq]
    simp [isEmpty_false_iff.mpr hl, isEmpty_false_iff.mpr hm]
  · intro hm hl
    unfold tryLoadingFiles
    rw [discoverLoop_eq]
    simp [isEmpty_false_iff.mpr hl, hm]
  · intro disp hd
    unfold tryLoadingFiles at hd
    rw [discoverLoop_eq] at hd
    cases hl2 : (loadedNames loads).isEmpty
    · cases hm2 : (matchedNames cfg loads).isEmpty
      · simp [hl2, hm2] at hd
        rw [← hd]
        exact hml.trans hlc
      · simp [hl2, hm2] at hd
        rw [← hd]
        exact hlc
    · simp [hl2] at hd

/-- C1 witness: three candidates, one matching the default filter — the
dropdown shows exactly that file. -/
theorem c1_discovery_display_policy_witness :
    matchedNames defaultConfig c1Loads ≠ [] ∧
    tryLoadingFiles defaultConfig c1Loads = some ["f2"] :=
  ⟨by decide, by
    rw [(c1_discovery_display_policy defaultConfig c1Loads).1 (by decide)]
    decide⟩

/-- C2: a loaded document (an array of records) is classified as matching
the filter iff it contains at least one entry that is an object whose
`type` equals the configured `typeFilter` and whose `summary` is a string
containing the configured `contentFilter` as a case-sensitive substring
(stated for a non-empty filter text, as configured). -/
theorem c2_relevance_predicate (cfg : FilterConfig) (items : List JSVal)
    (hf : cfg.contentFilter ≠ "") :
    fileContainsFilteredContent cfg (.vArr items) = true ↔
      ∃ item ∈ items,
        (∃ fields, item = JSVal.vObj fields) ∧
        getField item "type" = some (.vStr cfg.typeFilter) ∧
        ∃ s : String, getField item "summary" = some (.vStr s) ∧
          ∃ pre post, s.data = pre ++ cfg.contentFilter.data ++ post := by
  unfold fileContainsFilteredContent
  rw [List.any_eq_true]
  constructor
  · rintro ⟨item, hin, hp⟩
    unfold entryMatchesFilter at hp
    simp only [Bool.and_eq_true] at hp
    obtain ⟨⟨⟨ht, hobj⟩, hfe⟩, hsum⟩ := hp
    have hty : getField item "type" = some (.vStr cfg.typeFilter) :=
      fieldStrictEq_vStr_iff.mp hfe
    have hoobj : ∃ fields, item = JSVal.vObj fields := by
      cases item with
      | vObj fields => exact ⟨fields, rfl⟩
      | vNull => exact absurd hty (by simp [getField])
      | vBool b => exact absurd hty (by simp [getField])
      | vNum n => exact absurd hty (by simp [getField])
      | vStr s => exact absurd hty (by simp [getField])
      | vArr a => exact absurd hty (by simp [getField])
    rcases hg : getField item "summary" with _ | sv
    · rw [hg] at hsum
      exact absurd hsum (by simp)
    · rw [hg] at hsum
      cases sv with
      | vStr s =>
        have hsum2 : (!s.isEmpty && jsIncludes s cfg.contentFilter) = true := hsum
        rw [Bool.and_eq_true] at hsum2
        obtain ⟨pre, post, hdec⟩ := containsL_iff.mp hsum2.2
        exact ⟨item, hin, hoobj, hty, s, hg, pre, post, hdec⟩
      | vNull => exact absurd (show (false : Bool) = true from hsum) (by simp)
      | vBool b => exact absurd (show (false : Bool) = true from hsum) (by simp)
      | vNum n => exact absurd (show (false : Bool) = true from hsum) (by simp)
      | vArr a => exact absurd (show (false : Bool) = true from hsum) (by simp)
      | vObj f => exact absurd (show (false : Bool) = true from hsum) (by simp)
  · rintro ⟨item, hin, ⟨fields, rfl⟩, hty, s, hsum, pre, post, hdec⟩
    refine ⟨.vObj fields, hin, ?_⟩
    have hne : s ≠ "" := by
      intro h0
      subst h0
      have hnil : ([] : List Char) = pre ++ cfg.contentFilter.data ++ post := hdec
      rcases List.append_eq_nil.mp hnil.symm with ⟨h1, -⟩
      rcases List.append_eq_nil.mp h1 with ⟨-, h2⟩
      exact string_data_ne_nil hf h2
    unfold entryMatchesFilter
    rw [hsum]
    simp only [Bool.and_eq_true]
    exact ⟨⟨⟨rfl, rfl⟩, fieldStrictEq_vStr_iff.mpr hty⟩,
      string_not_isEmpty hne, containsL_iff.mpr ⟨pre, post, hdec⟩⟩

/-- C2 witness: a concrete matching document under the default filter. -/
theorem c2_relevance_predicate_witness :
    defaultConfig.contentFilter ≠ "" ∧
    fileContainsFilteredContent defaultConfig (.vArr c2Doc) = true :=
  ⟨by decide,
    (c2_relevance_predicate defaultConfig c2Doc (by decide)).mpr
      ⟨.vObj [("type", .vStr "tech_choices"),
        ("summary", .vStr "see Testing Frameworks guide")],
       List.mem_cons_self _ _, ⟨_, rfl⟩, rfl,
       "see Testing Frameworks guide", rfl,
       "see ".data, " guide".data, by decide⟩⟩

/-- C3: when the rendered category equals the configured target category,
every rendered summary decomposes into filter-free segments joined by the
filter text and the emitted block joins the same segments with the
highlight marker (so every leftmost, non-overlapping literal occurrence of
the filter substring is wrapped before markdown conversion); for any other
rendered category the blocks are the summaries unchanged, even when they
contain the substring. -/
theorem c3_highlighting (cfg : FilterConfig) (file : String) (items : List JSVal)
    (tn hd : String) (co : Bool) (blocks : List JSVal)
    (hf : cfg.contentFilter ≠ "")
    (hres : displayContentByType cfg file items (.vStr tn) =
      some (.content hd co blocks)) :
    (tn = cfg.typeFilter →
      List.Forall₂ (highlightRel cfg)
        (truthySummaries (contentItemsOf items (.vStr tn))) blocks)
    ∧ (tn ≠ cfg.typeFilter →
        blocks = truthySummaries (contentItemsOf items (.vStr tn))) := by
  have hrb := displayContentByType_content_inv hres
  constructor
  · intro heq
    subst heq
    exact renderBlocks_target hf _ blocks hrb
  · intro hne
    exact renderBlocks_offtarget hne _ blocks hrb

/-- C3 witness: a concrete target-category render with one occurrence of
the filter text wrapped in the highlight marker. -/
theorem c3_highlighting_witness :
    defaultConfig.contentFilter ≠ "" ∧
    displayContentByType defaultConfig "f" c3Doc (.vStr "tech_choices") =
      some (.content "f - Tech Choices" true
        [.vStr "use <span class=\"highlight\">Testing Frameworks</span> now"]) ∧
    List.Forall₂ (highlightRel defaultConfig)
      (truthySummaries (contentItemsOf c3Doc (.vStr "tech_choices")))
      [.vStr "use <span class=\"highlight\">Testing Frameworks</span> now"] :=
  ⟨by decide, rfl,
    (c3_highlighting defaultConfig "f" c3Doc "tech_choices" "f - Tech Choices" true
      [.vStr "use <span class=\"highlight\">Testing Frameworks</span> now"]
      (by decide) rfl).1 rfl⟩

/-- C4 counterexample: on the document `[null, {type: "a", summary: "x"}]`
with the default configuration the code renders nothing at all
(`displaySelectedContent` writes nothing and the previous content
persists), while the claim predicts the category of the first well-formed
entry (`a`) is rendered. -/
theorem c4_selection_priority_counterexample :
    displaySelectedContent defaultConfig "file" (some (.vArr illFirstDoc)) =
      some .nothingRendered
    ∧ specSelectedOutcome defaultConfig "file" illFirstDoc =
      some (.rendered (.vStr "a") (.content "file - A" false [.vStr "x"]))
    ∧ SelectionOutcome.nothingRendered ≠
        SelectionOutcome.rendered (.vStr "a") (.content "file - A" false [.vStr "x"]) :=
  ⟨rfl, rfl, fun h => SelectionOutcome.noConfusion h⟩

/-- C4 (amended): after a successful load of a document whose truthy
`type` and `summary` fields are strings, the outcome is (a) the configured
target category when it has at least one matching entry; else (b) the
category of the document's literal first entry when that entry is a truthy
object with a truthy `type`; else (c) the explicit empty-state exactly
when the document has no entries; and otherwise nothing is rendered and
the previous content persists. -/
theorem c4_selection_priority_amended (cfg : FilterConfig) (file : String)
    (items : List JSVal) (hclean : docClean items = true) :
    (items.any (entryMatchesFilter cfg) = true →
      ∃ out, displaySelectedContent cfg file (some (.vArr items)) =
        some (.rendered (.vStr cfg.typeFilter) out))
    ∧ (items.any (entryMatchesFilter cfg) = false →
        ∀ first rest, items = first :: rest →
          (firstEntryRenderable first = true →
            ∃ tv out, getField first "type" = some tv ∧
              displaySelectedContent cfg file (some (.vArr items)) =
                some (.rendered tv out))
          ∧ (firstEntryRenderable first = false →
              displaySelectedContent cfg file (some (.vArr items)) =
                some .nothingRendered))
    ∧ (items = [] →
        displaySelectedContent cfg file (some (.vArr items)) = some .emptyFile) := by
  refine ⟨?_, ?_, ?_⟩
  · exact displaySelectedContent_match hclean
  · intro hmatch first rest hitems
    subst hitems
    exact displaySelectedContent_nomatch_first first rest hclean hmatch
  · intro h0
    subst h0
    exact displaySelectedContent_empty cfg file

/-- C4 witness: the amended claim evaluated on the counterexample
document — an ill-formed first entry with no filter match renders
nothing. -/
theorem c4_selection_priority_amended_witness :
    docClean illFirstDoc = true ∧
    displaySelectedContent defaultConfig "file2" (some (.vArr illFirstDoc)) =
      some .nothingRendered :=
  ⟨by decide,
    ((c4_selection_priority_amended defaultConfig "file2" illFirstDoc
      (by decide)).2.1 (by decide) JSVal.vNull
      [.vObj [("type", .vStr "a"), ("summary", .vStr "x")]] rfl).2 rfl⟩

/-- C5: when a file selection's load fails (no sample entry and the fetch
throws), the stored document, the category buttons and the rendered
content are unchanged; the only effect is the surfaced error status. -/
theorem c5_selection_failure_atomicity (cfg : FilterConfig)
    (sampleData : List (String × JSVal)) (fileName msg : String) (st : ViewerState)
    (hs : truthyOpt (lookupField sampleData fileName) = false) :
    (handleFileSelection cfg sampleData (.error msg) fileName st).currentJsonData =
        st.currentJsonData
    ∧ (handleFileSelection cfg sampleData (.error msg) fileName st).typeButtons =
        st.typeButtons
    ∧ (handleFileSelection cfg sampleData (.error msg) fileName st).contentOutput =
        st.contentOutput
    ∧ (handleFileSelection cfg sampleData (.error msg) fileName st).statusMessage =
        some ("Error: " ++ msg) := by
  rw [handleFileSelection_failure hs]
  exact ⟨rfl, rfl, rfl, rfl⟩

/-- C5 witness: a failed selection on a concrete prior state only sets the
error status. -/
theorem c5_selection_failure_atomicity_witness :
    truthyOpt (lookupField [] "x.json") = false ∧
    (handleFileSelection defaultConfig [] (.error "HTTP error 404") "x.json"
      priorState).contentOutput = priorState.contentOutput ∧
    (handleFileSelection defaultConfig [] (.error "HTTP error 404") "x.json"
      priorState).currentJsonData = priorState.currentJsonData ∧
    (handleFileSelection defaultConfig [] (.error "HTTP error 404") "x.json"
      priorState).statusMessage = some "Error: HTTP error 404" :=
  ⟨rfl,
    (c5_selection_failure_atomicity defaultConfig [] "x.json" "HTTP error 404"
      priorState rfl).2.2.1,
    (c5_selection_failure_atomicity defaultConfig [] "x.json" "HTTP error 404"
      priorState rfl).1,
    (c5_selection_failure_atomicity defaultConfig [] "x.json" "HTTP error 404"
      priorState rfl).2.2.2⟩

/-- C6: when every candidate fails to load, discovery fails and the
dropdown falls back to the sample dataset's keys; the displayed list is
non-empty whenever some candidate loads or the sample dataset is
non-empty. -/
theorem c6_fallback_totality (cfg : FilterConfig)
    (loads : List (String × Except String JSVal))
    (sampleData : List (String × JSVal)) :
    ((∀ p ∈ loads, ∀ d, p.2 ≠ Except.ok d) →
      initDisplayed cfg loads sampleData = sampleData.map Prod.fst)
    ∧ (((∃ p ∈ loads, ∃ d, p.2 = Except.ok d) ∨ sampleData ≠ []) →
        initDisplayed cfg loads sampleData ≠ []) := by
  constructor
  · intro hall
    have hln : loadedNames loads = [] := by
      unfold loadedNames
      apply List.filterMap_eq_nil.mpr
      intro p hp
      rcases hp2 : p.2 with e | d
      · simp [hp2]
      · exact absurd hp2 (hall p hp d)
    have htf : tryLoadingFiles cfg loads = none := by
      unfold tryLoadingFiles
      rw [discoverLoop_eq]
      simp [hln]
    unfold initDisplayed
    rw [htf]
  · intro hsrc
    unfold initDisplayed
    cases htf : tryLoadingFiles cfg loads with
    | some disp => simpa using tryLoadingFiles_some_ne_nil htf
    | none =>
      rcases hsrc with ⟨p, hp, d, hpd⟩ | hsmp
      · exfalso
        have hl : loadedNames loads ≠ [] := by
          have hmm : p.1 ∈ loadedNames loads := by
            unfold loadedNames
            apply List.mem_filterMap.mpr
            exact ⟨p, hp, by rw [hpd]⟩
          intro h0
          rw [h0] at hmm
          exact absurd hmm (List.not_mem_nil _)
        unfold tryLoadingFiles at htf
        rw [discoverLoop_eq] at htf
        cases hm2 : (matchedNames cfg loads).isEmpty <;>
          simp [isEmpty_false_iff.mpr hl, hm2] at htf
      · simp [hsmp]

/-- C6 witness: three failing candidates plus a one-entry sample dataset —
the dropdown shows the sample file name. -/
theorem c6_fallback_totality_witness :
    initDisplayed defaultConfig c6Loads c6Sample = ["sample_learnings.json"] ∧
    initDisplayed defaultConfig c6Loads c6Sample ≠ [] := by
  have hall : ∀ p ∈ c6Loads, ∀ d, p.2 ≠ Except.ok d := by
    intro p hp d
    simp only [c6Loads, List.mem_cons, List.not_mem_nil, or_false] at hp
    rcases hp with rfl | rfl | rfl <;> simp
  constructor
  · rw [(c6_fallback_totality defaultConfig c6Loads c6Sample).1 hall]
    rfl
  · exact (c6_fallback_totality defaultConfig c6Loads c6Sample).2
      (Or.inr (by simp [c6Sample]))

/-- C7: the header title is the category label with all underscores
replaced by spaces and the leading letter of each word capitalized (the
scan in the code equals the positional specification-side description);
in particular `tech_choices` renders as `Tech Choices`. -/
theorem c7_title_derivation :
    (∀ s : String, titleCase s = specTitleCase s)
    ∧ titleCase "tech_choices" = "Tech Choices" :=
  ⟨titleCase_eq_specTitleCase, by decide⟩

/-- C8: the derived category list is sorted (by the string order the
default sort comparator induces), duplicate-free under strict equality, and
a label is in it exactly when some truthy object entry carries it as a
truthy `type` — so ill-formed records are skipped without error; the
example document with types `b, a, a, c` yields `a, b, c`. -/
theorem c8_category_set (items : List JSVal) :
    List.Sorted jsKeyLe (categoriesOf items)
    ∧ List.Pairwise (fun a b => jsStrictEq a b = false) (categoriesOf items)
    ∧ (∀ t, t ∈ categoriesOf items ↔
        ∃ item ∈ items, truthy item = true ∧ isObjectType item = true ∧
          getField item "type" = some t ∧ truthy t = true)
    ∧ categoriesOf categoriesExampleDoc = [.vStr "a", .vStr "b", .vStr "c"] :=
  ⟨categoriesOf_sorted items, categoriesOf_pairwise items,
    fun _ => mem_categoriesOf, rfl⟩

/-- C8 witness: the claim instantiated at the example document. -/
theorem c8_category_set_witness :
    (JSVal.vStr "a" ∈ categoriesOf categoriesExampleDoc ↔
      ∃ item ∈ categoriesExampleDoc, truthy item = true ∧
        isObjectType item = true ∧
        getField item "type" = some (.vStr "a") ∧ truthy (JSVal.vStr "a") = true) ∧
    categoriesOf categoriesExampleDoc = [.vStr "a", .vStr "b", .vStr "c"] :=
  ⟨(c8_category_set categoriesExampleDoc).2.2.1 (.vStr "a"),
    (c8_category_set categoriesExampleDoc).2.2.2⟩

/-- C9: rendering a category that no well-formed entry of the document
carries produces the explicit "no content" message — never an exception
and never blank output. -/
theorem c9_empty_category_safety (cfg : FilterConfig) (file : String)
    (items : List JSVal) (c : String)
    (h : items.all (fun item => !fieldStrictEq item "type" (.vStr c)) = true) :
    displayContentByType cfg file items (.vStr c) = some (.noContent (.vStr c)) := by
  apply displayContentByType_noContent
  unfold contentItemsOf
  apply List.filter_eq_nil.mpr
  intro a ha
  have h2 := List.all_eq_true.mp h a ha
  simp only [Bool.not_eq_true'] at h2
  simp [h2]

/-- C9 witness: rendering an absent category on a concrete document. -/
theorem c9_empty_category_safety_witness :
    (c9Doc.all (fun item => !fieldStrictEq item "type" (.vStr "zzz"))) = true ∧
    displayContentByType defaultConfig "f9" c9Doc (.vStr "zzz") =
      some (.noContent (.vStr "zzz")) :=
  ⟨by decide, c9_empty_category_safety defaultConfig "f9" c9Doc "zzz" (by decide)⟩

/-- C10: an entry of the rendered category whose `summary` is absent or
falsy contributes no block (the rendered blocks and the match flag are the
same as without it), yet it makes the category non-empty and its `type`
still appears in the derived category list. -/
theorem c10_falsy_summary_omitted (cfg : FilterConfig) (c : String)
    (doc1 doc2 : List JSVal) (e : JSVal)
    (he1 : truthy e = true) (he2 : isObjectType e = true)
    (he3 : getField e "type" = some (.vStr c))
    (hs : truthyOpt (getField e "summary") = false) :
    contentItemsOf (doc1 ++ e :: doc2) (.vStr c) ≠ []
    ∧ renderBlocks cfg (.vStr c) (contentItemsOf (doc1 ++ e :: doc2) (.vStr c)) =
        renderBlocks cfg (.vStr c) (contentItemsOf (doc1 ++ doc2) (.vStr c))
    ∧ jsSomeM (summaryMatches cfg) (contentItemsOf (doc1 ++ e :: doc2) (.vStr c)) =
        jsSomeM (summaryMatches cfg) (contentItemsOf (doc1 ++ doc2) (.vStr c))
    ∧ (c ≠ "" → JSVal.vStr c ∈ categoriesOf (doc1 ++ e :: doc2)) := by
  have hpred : (truthy e && isObjectType e &&
      fieldStrictEq e "type" (.vStr c)) = true := by
    rw [he1, he2]
    simp [fieldStrictEq, he3, jsStrictEq_refl_vStr]
  have hsplit : contentItemsOf (doc1 ++ e :: doc2) (.vStr c) =
      contentItemsOf doc1 (.vStr c) ++ e :: contentItemsOf doc2 (.vStr c) := by
    unfold contentItemsOf
    rw [List.filter_append, List.filter_cons]
    simp [hpred]
  have hsplit2 : contentItemsOf (doc1 ++ doc2) (.vStr c) =
      contentItemsOf doc1 (.vStr c) ++ contentItemsOf doc2 (.vStr c) := by
    unfold contentItemsOf
    rw [List.filter_append]
  refine ⟨?_, ?_, ?_, ?_⟩
  · rw [hsplit]
    simp
  · rw [hsplit, hsplit2]
    exact renderBlocks_append_skip cfg (.vStr c) (renderBlock_skip hs) _ _
  · rw [hsplit, hsplit2]
    exact jsSomeM_append_skip _ (summaryMatches_skip hs) _ _
  · intro hc
    rw [mem_categoriesOf]
    exact ⟨e, by simp, he1, he2, he3, truthy_vStr_of_ne hc⟩

/-- C10 witness: a summary-less entry of category `a` is omitted from the
blocks but keeps the category present and non-empty. -/
theorem c10_falsy_summary_omitted_witness :
    truthyOpt (getField c10Entry "summary") = false ∧
    contentItemsOf (c10Entry :: c10Rest) (.vStr "a") ≠ [] ∧
    renderBlocks defaultConfig (.vStr "a")
        (contentItemsOf (c10Entry :: c10Rest) (.vStr "a")) =
      renderBlocks defaultConfig (.vStr "a") (contentItemsOf c10Rest (.vStr "a")) ∧
    JSVal.vStr "a" ∈ categoriesOf (c10Entry :: c10Rest) := by
  have h := c10_falsy_summary_omitted defaultConfig "a" [] c10Rest c10Entry
    rfl rfl rfl rfl
  exact ⟨rfl, h.1, h.2.1, h.2.2.2 (by decide)⟩

end LearningViewer
